import Mathlib

/-!
Verification of the portfolio tracker (src/portfolio_tracker.py).

The program is a single Streamlit page.  Its computational core (lines
126-216) fetches a price frame, normalizes it, multiplies each price column by
the held share count, sums rows into a running total, reads off first/last
metrics and the current composition; the sidebar (lines 19-104) manages the
portfolio list, and an expander (lines 27-60) serializes it to CSV and loads it
back.  This file embeds those computations shallowly: pandas frames become
tables of optional rationals (a `none` cell is a NaN), pandas records become
association lists of dynamically typed cells, and the CSV text becomes a list
of characters.  Each section cites the source lines it translates.
-/

namespace PortfolioTracker

/-- A held asset as created by the add-stock form (lines 81-84): a ticker
string and a share count.  Share counts (and prices) are modelled as rationals,
the exact fragment of IEEE doubles that the arithmetic of the program stays in
apart from the one division at line 163, which gets its own treatment below. -/
structure Holding where
  ticker : String
  shares : ℚ
deriving Repr, DecidableEq

/-- Trading dates, abstracted to naturals ordered as the real dates are. -/
abbrev Date := ℕ

/-- A date-indexed pandas frame: named columns and, per date, one optional cell
per column.  A `none` cell models a NaN / missing price. -/
structure Df where
  cols : List String
  rows : List (Date × List (Option ℚ))
deriving Repr, DecidableEq

/-- Raw provider output (line 140): yfinance hands back a flat series for a
single ticker and a column-indexed frame for several. -/
inductive Raw
  | series (s : List (Date × Option ℚ))
  | frame (df : Df)
deriving Repr, DecidableEq

/-- Lines 143-144: a Series result is promoted to a one-column frame named
after the first requested ticker (`df.to_frame(name=tickers[0])`). -/
def promote (tickers : List String) : Raw → Df
  | .series s => ⟨[tickers.headD ""], s.map (fun r => (r.1, [r.2]))⟩
  | .frame df => df

/-- Line 147: `df.dropna(how='all', inplace=True)` keeps exactly the rows
having at least one non-missing cell. -/
def dropAllNa (df : Df) : Df :=
  ⟨df.cols, df.rows.filter (fun r => r.2.any (fun c => c.isSome))⟩

/-- The whole normalization step of lines 143-147. -/
def normalize (tickers : List String) (raw : Raw) : Df :=
  dropAllNa (promote tickers raw)

/-- One cell of `df[t]` at a given row: the cell under the first column named
`t`, missing when no column is so named. -/
def cellOf : List String → List (Option ℚ) → String → Option ℚ
  | [], _, _ => none
  | _ :: _, [], _ => none
  | c :: cs, v :: vs, t => if c = t then v else cellOf cs vs t

/-- Line 131: `share_map = {item['ticker']: item['shares'] for item in
st.session_state.portfolio}` — a dict comprehension, so a later duplicate key
overwrites an earlier one. -/
def shareMap (p : List Holding) (t : String) : ℚ :=
  ((p.reverse.find? (fun h => h.ticker == t)).map Holding.shares).getD 0

/-- Lines 152-153: the value columns are the held tickers that occur among the
price columns (`if ticker in df.columns`), in portfolio order. -/
def valueCols (tickers : List String) (df : Df) : List String :=
  tickers.filter (fun t => df.cols.contains t)

/-- Lines 150-154: `portfolio_value_df[ticker] = df[ticker] *
share_map[ticker]` on the index of `df`, for each held ticker present among
the price columns; a missing price propagates to a missing value. -/
def valueTable (p : List Holding) (df : Df) : Df :=
  ⟨valueCols (p.map Holding.ticker) df,
   df.rows.map (fun r =>
     (r.1, (valueCols (p.map Holding.ticker) df).map
       (fun t => (cellOf df.cols r.2 t).map (fun q => q * shareMap p t))))⟩

/-- Line 157: `.sum(axis=1)` with pandas' default `skipna=True` — the sum of
the non-missing cells of a row; an all-missing (or empty) row sums to `0`. -/
def rowTotal (cells : List (Option ℚ)) : ℚ :=
  (cells.filterMap id).sum

/-- An IEEE double as observed through the metrics path: a finite value, or one
of the non-finite values that dividing a finite float by zero produces. -/
inductive FV
  | fin (q : ℚ)
  | posInf
  | negInf
  | nan
deriving Repr, DecidableEq

/-- The division at line 163, with IEEE semantics: finite for a nonzero
denominator, `±inf` or `nan` (never an exception) for a zero one. -/
def fdivF (a b : ℚ) : FV :=
  if b = 0 then (if 0 < a then .posInf else if a < 0 then .negInf else .nan)
  else .fin (a / b)

/-- Multiplication by the literal `100` at line 163, extended to non-finite
values as IEEE arithmetic extends it. -/
def scale100 : FV → FV
  | .fin q => .fin (q * 100)
  | .posInf => .posInf
  | .negInf => .negInf
  | .nan => .nan

/-- The failure vocabulary of the metrics path: `indexError` is what
`.iloc[-1]` raises on an empty frame (line 160), caught by the blanket handler
of lines 214-216; `insufficientDataError` is the distinct error named by the
design document — the source never defines or raises any such error, and the
embedding accordingly never produces this constructor. -/
inductive Err
  | indexError
  | insufficientDataError
deriving Repr, DecidableEq

/-- The pure data computed by the processing block (lines 149-212): the value
table, its `Total Value` column, the four metrics of lines 160-163, the
composition read at lines 202-203 from the last row of the per-asset table
(missing cells included), and the warnings surfaced along the way — the source
surfaces none, so the field is always empty. -/
structure Result where
  values : Df
  totals : List (Date × ℚ)
  currentTotal : ℚ
  startTotal : ℚ
  deltaAbs : ℚ
  deltaPct : FV
  composition : List (String × Option ℚ)
  warnings : List String
deriving Repr, DecidableEq

/-- Lines 140-212 as a function of the portfolio and the provider data.  The
raw prices are normalized, the per-ticker value table is built, and the
metrics and composition are read off with `iloc[0]` / `iloc[-1]`.  Since
`iloc[-1]` at line 160 raises IndexError on an empty frame, an empty
normalized table yields an error instead of a result. -/
def computeValuation (p : List Holding) (raw : Raw) : Except Err Result :=
  let tickers := p.map Holding.ticker
  let df := normalize tickers raw
  let vt := valueTable p df
  if vt.rows.isEmpty then .error .indexError
  else
    let lastRow := vt.rows.getLastD (0, [])
    let firstRow := vt.rows.headD (0, [])
    let currentTotal := rowTotal lastRow.2
    let startTotal := rowTotal firstRow.2
    let delta := currentTotal - startTotal
    .ok { values := vt
          totals := vt.rows.map (fun r => (r.1, rowTotal r.2))
          currentTotal := currentTotal
          startTotal := startTotal
          deltaAbs := delta
          deltaPct := scale100 (fdivF delta startTotal)
          composition := vt.cols.zip lastRow.2
          warnings := [] }

/-- Well-formedness of a provider frame, which a real DataFrame guarantees by
construction: distinct column names and one cell per column in every row. -/
def WF (df : Df) : Prop :=
  df.cols.Nodup ∧ ∀ row ∈ df.rows, row.2.length = df.cols.length

/-- The deltaPct field of a successful valuation, `none` on the error path. -/
def deltaPctOf : Except Err Result → Option FV
  | .ok r => some r.deltaPct
  | .error _ => none

/-- The composition of a successful valuation, `none` on the error path. -/
def compositionOf : Except Err Result → Option (List (String × Option ℚ))
  | .ok r => some r.composition
  | .error _ => none

/-- The warnings of a successful valuation, `none` on the error path. -/
def warningsOf : Except Err Result → Option (List String)
  | .ok r => some r.warnings
  | .error _ => none

/-- The pieces of `st.session_state` and of the rendered page that the data
processing block touches: the portfolio list and the stream of status banners
shown to the user. -/
structure SessionState where
  portfolio : List Holding
  messages : List String
deriving Repr, DecidableEq

/-- Lines 126-216: the processing block derives everything from the session
portfolio and the fetched prices, renders either the metrics and charts or the
error banner of line 215, and performs no assignment to
`st.session_state.portfolio`. -/
def processData (s : SessionState) (raw : Raw) : SessionState × Except Err Result :=
  match computeValuation s.portfolio raw with
  | .ok r => ({ s with messages := s.messages ++ ["metrics and charts rendered"] }, .ok r)
  | .error e =>
      ({ s with messages := s.messages ++ ["An error occurred while processing data"] }, .error e)

/-- Lines 69-89: the add-stock handler.  `hasData` stands for the outcome of
the external yfinance one-day-history check of lines 77-80; the holding is
appended only for a nonempty ticker that is not yet held and whose data check
succeeds — every other path leaves the portfolio unchanged. -/
def addStock (p : List Holding) (tickerInput : String) (sharesInput : ℚ)
    (hasData : Bool) : List Holding :=
  if tickerInput = "" then p
  else if p.any (fun h => h.ticker == tickerInput) then p
  else if hasData then p ++ [⟨tickerInput, sharesInput⟩]
  else p

/-! The CSV persistence layer of lines 27-60.  The file text is modelled as a
list of characters; splitting, numeric rendering and numeric parsing are spelled
out so that every step is executable and provable. -/

/-- CSV text and CSV fields: a list of characters. -/
abbrev Str := List Char

/-- Split on a separator character, the way both the csv writer and the csv
reader tokenize (quoting aside): every occurrence of `c` ends a chunk, and the
list of chunks is never empty. -/
def splitCh (c : Char) : Str → List Str
  | [] => [[]]
  | a :: as =>
    let r := splitCh c as
    if a = c then [] :: r else (a :: r.headD []) :: r.tail

/-- The character for a decimal digit (`0`-`9` for `d < 10`). -/
def digitChar (d : ℕ) : Char := Char.ofNat (48 + d)

/-- Whether a character is a decimal digit. -/
def isDigitCh (ch : Char) : Bool := 48 ≤ ch.toNat && ch.toNat ≤ 57

/-- Little-endian decimal digits, driven by a fuel argument so the recursion is
structural; `natDigits` supplies enough fuel for any input. -/
def natDigitsAux : ℕ → ℕ → List ℕ
  | 0, _ => []
  | _ + 1, 0 => []
  | fuel + 1, n + 1 => ((n + 1) % 10) :: natDigitsAux fuel ((n + 1) / 10)

/-- Little-endian decimal digits of `n` (empty for `0`). -/
def natDigits (n : ℕ) : List ℕ := natDigitsAux n n

/-- The decimal rendering of a natural number, as Python's str/repr writes
it. -/
def printNat (n : ℕ) : Str :=
  if n = 0 then ['0'] else ((natDigits n).reverse.map digitChar)

/-- A fixed-width digit block: `n < 10^k` rendered with exactly `k` digits,
zero-padded on the left — the fractional part of a decimal rendering. -/
def padDigits (n k : ℕ) : Str :=
  ((natDigits n ++ List.replicate (k - (natDigits n).length) 0).reverse.map digitChar)

/-- Digit-list accumulator of the parser: consumes most-significant-first
digit characters, failing on anything that is not a digit. -/
def parseNatAux : ℕ → Str → Option ℕ
  | acc, [] => some acc
  | acc, ch :: s => if isDigitCh ch then parseNatAux (acc * 10 + (ch.toNat - 48)) s else none

/-- Parse a nonempty string of decimal digits (leading zeros allowed, exactly
as the C parser behind read_csv accepts them). -/
def parseNat : Str → Option ℕ
  | [] => none
  | s => parseNatAux 0 s

/-- Parse an unsigned decimal mantissa: an integer (`120`), or a decimal with
at most one point where either side may be empty (`1.5`, `5.`, `.5`). -/
def parseMant (s : Str) : Option ℚ :=
  match splitCh '.' s with
  | [a] => (parseNat a).map (fun n => (n : ℚ))
  | [a, b] =>
    if a = [] && b = [] then none
    else
      match (if a = [] then some 0 else parseNat a), (if b = [] then some 0 else parseNat b) with
      | some ia, some fb => some ((ia : ℚ) + (fb : ℚ) / 10 ^ b.length)
      | _, _ => none
  | _ => none

/-- Split a field at its first exponent marker `e`/`E`, if any. -/
def splitE : Str → Option (Str × Str)
  | [] => none
  | c :: s =>
    if c = 'e' ∨ c = 'E' then some ([], s)
    else (splitE s).map (fun p => (c :: p.1, p.2))

/-- Parse a signed integer exponent (`5`, `+5`, `-5`). -/
def parseExpInt (s : Str) : Option ℤ :=
  match s with
  | '+' :: rest => (parseNat rest).map (fun n => (n : ℤ))
  | '-' :: rest => (parseNat rest).map (fun n => -(n : ℤ))
  | _ => (parseNat s).map (fun n => (n : ℤ))

/-- An unsigned numeric field as read_csv's converter accepts it: a decimal
mantissa, optionally followed by an `e`/`E` exponent (`1.5`, `1E5`,
`2.5e-3`). -/
def parseQPos (s : Str) : Option ℚ :=
  match splitE s with
  | none => parseMant s
  | some (m, e) => (parseMant m).bind (fun q => (parseExpInt e).map (fun z => q * (10 : ℚ) ^ z))

/-- The numeric reading a CSV field gets from read_csv's converter: an optional
leading minus sign then an unsigned decimal with optional exponent. -/
def parseQ (s : Str) : Option ℚ :=
  if s.headD ' ' = '-' then (parseQPos s.tail).map (fun q => -q) else parseQPos s

/-- Search for the least decimal exponent, fuel-driven: the first `k`, counting
up from the current candidate, with `q * 10^k` integral. -/
def decExpAux : ℕ → ℕ → ℚ → ℕ
  | 0, k, _ => k
  | fuel + 1, k, q => if (q * 10 ^ k).den = 1 then k else decExpAux fuel (k + 1) q

/-- The number of decimal digits needed after the point for `q`; 1200 steps of
fuel cover every IEEE double (whose expansions stop well before 1100
digits). -/
def decExp (q : ℚ) : ℕ := decExpAux 1200 0 q

/-- The decimal rendering of a nonnegative finite-decimal rational, as repr of
the corresponding Python float writes it: digits, one point, and at least one
fractional digit (`1.0`, `0.25`).  (repr switches to exponent notation for
extreme magnitudes; the development evaluates on moderate ones, where it does
not.) -/
def printQ (q : ℚ) : Str :=
  let k := decExp q
  let m := (q * 10 ^ k).num.toNat
  if k = 0 then printNat m ++ ['.', '0']
  else printNat (m / 10 ^ k) ++ '.' :: padDigits (m % 10 ^ k) k

/-- A value inside a pandas record: a string cell, a finite numeric cell (the
int64 / float64 distinction is invisible to record equality, since Python `==`
identifies `1` and `1.0`), a boolean cell (from a column of TRUE/FALSE
fields), an infinite float (from an `inf` field in a numeric column), or a
missing cell — the NaN that an empty or NA-listed field turns into. -/
inductive Cell
  | str (s : Str)
  | num (q : ℚ)
  | boolVal (b : Bool)
  | infVal (neg : Bool)
  | nan
deriving Repr, DecidableEq

/-- A pandas record, as `to_dict('records')` produces it at line 54: one
key/value pair per column, in column order. -/
abbrev CsvRec := List (Str × Cell)

/-- read_csv's default NA markers: any field equal to one of these becomes NaN
before any dtype inference, whatever the column's dtype ends up being. -/
def naStrings : List Str :=
  ["", "#N/A", "#N/A N/A", "#NA", "-1.#IND", "-1.#QNAN", "-NaN", "-nan",
   "1.#IND", "1.#QNAN", "<NA>", "N/A", "NA", "NULL", "NaN", "None",
   "n/a", "nan", "null"].map String.data

/-- Whether a field is one of the default NA markers. -/
def isNAStr (s : Str) : Bool := naStrings.contains s

/-- The boolean field spellings read_csv's parser recognizes. -/
def trueStrings : List Str := ["TRUE", "True", "true"].map String.data

def falseStrings : List Str := ["FALSE", "False", "false"].map String.data

def isBoolStr (s : Str) : Bool := trueStrings.contains s || falseStrings.contains s

/-- The infinity spellings read_csv's numeric converter recognizes: an
optional sign then case-insensitive `inf` or `infinity`. -/
def isInfStr (s : Str) : Bool :=
  let body : Str :=
    match s with
    | '+' :: rest => rest
    | '-' :: rest => rest
    | _ => s
  (body.map Char.toLower) == "inf".data || (body.map Char.toLower) == "infinity".data

/-- A column is numeric exactly when every field is either an NA marker or a
number the converter accepts (finite or infinite). -/
def colIsNumeric (raw : List Str) : Bool :=
  raw.all (fun s => isNAStr s || (parseQ s).isSome || isInfStr s)

/-- A column is boolean exactly when every field is either an NA marker or a
recognized TRUE/FALSE spelling. -/
def colIsBool (raw : List Str) : Bool :=
  raw.all (fun s => isNAStr s || isBoolStr s)

/-- The dtype a column ends up with: numeric when all fields are numeric-or-NA,
else boolean when all fields are bool-or-NA, else plain strings. -/
inductive ColKind
  | numeric
  | boolKind
  | object
deriving Repr, DecidableEq

def colKind (raw : List Str) : ColKind :=
  if colIsNumeric raw then .numeric
  else if colIsBool raw then .boolKind
  else .object

/-- The typed value a raw field receives: NaN for an NA marker whatever the
column, the parsed number (or a signed infinity) under a numeric column, a
boolean under a bool column, and the verbatim string otherwise. -/
def inferCell (kind : ColKind) (s : Str) : Cell :=
  if isNAStr s then .nan
  else
    match kind with
    | .numeric =>
        match parseQ s with
        | some q => .num q
        | none => .infVal (s.headD ' ' == '-')
    | .boolKind => .boolVal (trueStrings.contains s)
    | .object => .str s

/-- Lines 49-54: read the uploaded CSV, accept it when a `ticker` and a
`shares` column are present (a membership check, not an equality check), and
turn the frame into records.  Blank lines are skipped by the reader; a file
with no content lines at all is a read error (caught at line 59); every data
line must carry one field per header field, as the tokenizer rejects ragged
rows.  Fields are taken verbatim — a field pandas would have quoted on the way
out is outside what this loader is evaluated on. -/
def loadPortfolio (file : Str) : Option (List CsvRec) :=
  match (splitCh '\n' file).filter (fun l => !l.isEmpty) with
  | [] => none
  | header :: dataLines =>
    let cols := splitCh ',' header
    let rows := dataLines.map (splitCh ',')
    if rows.all (fun r => r.length == cols.length) then
      if cols.contains "ticker".data && cols.contains "shares".data then
        let kindAt : ℕ → ColKind := fun i => colKind (rows.map (fun r => r.getD i []))
        some (rows.map (fun r =>
          cols.enum.map (fun ic => (ic.2, inferCell (kindAt ic.1) (r.getD ic.1 [])))))
      else none
    else none

/-- Lines 33-34: `pd.DataFrame(st.session_state.portfolio).to_csv(index=False)`
— a header line then one newline-terminated line per holding.  An empty
portfolio gives a frame with no columns, whose to_csv is a bare newline (the
download button is not even rendered then).  Fields holding the delimiter or a
quote character would be quoted by pandas; the round-trip theorem keeps to
tickers without such characters, where to_csv writes fields verbatim. -/
def toCsv (p : List Holding) : Str :=
  if p = [] then ['\n']
  else "ticker,shares\n".data
    ++ (p.map (fun h => h.ticker.data ++ ',' :: (printQ h.shares ++ ['\n']))).flatten

/-- The record a holding becomes when the load preserves its shape: a string
ticker cell and a numeric shares cell under the two expected keys. -/
def holdingRec (h : Holding) : CsvRec :=
  [("ticker".data, Cell.str h.ticker.data), ("shares".data, Cell.num h.shares)]

/-- Lines 52-60: a successfully parsed upload replaces the session portfolio
wholesale (`st.session_state.portfolio = uploaded_df.to_dict('records')`); a
failed read or a missing column leaves it unchanged. -/
def uploadPortfolio (cur : List CsvRec) (file : Str) : List CsvRec :=
  (loadPortfolio file).getD cur

/-- The ticker cell of a record, as `d['ticker']` reads it. -/
def recTicker (r : CsvRec) : Option Cell :=
  (r.find? (fun kv => kv.1 == "ticker".data)).map (fun kv => kv.2)

/-- A rational with a finite decimal expansion of fewer than 1200 digits — the
fragment every IEEE double value lies in. -/
def IsDec (q : ℚ) : Prop := ∃ k, k < 1200 ∧ (q * 10 ^ k).den = 1

/-- An uppercase ASCII letter — the alphabet the data model's
uppercase-normalized tickers are drawn from. -/
def upperAlpha (c : Char) : Bool := 65 ≤ c.toNat && c.toNat ≤ 90

/-! Supporting lemmas. -/

/-- Inversion of a successful valuation: how every field of the result relates
to the value table the pipeline built. -/
lemma ok_fields (p : List Holding) (raw : Raw) (r : Result)
    (h : computeValuation p raw = .ok r) :
    r.values = valueTable p (normalize (p.map Holding.ticker) raw) ∧
    r.values.rows ≠ [] ∧
    r.totals = r.values.rows.map (fun rr => (rr.1, rowTotal rr.2)) ∧
    r.currentTotal = rowTotal (r.values.rows.getLastD (0, [])).2 ∧
    r.startTotal = rowTotal (r.values.rows.headD (0, [])).2 ∧
    r.deltaAbs = r.currentTotal - r.startTotal ∧
    r.deltaPct = scale100 (fdivF r.deltaAbs r.startTotal) ∧
    r.composition = r.values.cols.zip (r.values.rows.getLastD (0, [])).2 ∧
    r.warnings = [] := by
  simp only [computeValuation] at h
  split at h
  · exact absurd h (by simp)
  · next hne =>
      cases h
      refine ⟨rfl, ?_, rfl, rfl, rfl, rfl, rfl, rfl, rfl⟩
      simpa [List.isEmpty_iff] using hne

/-- An error is raised exactly when the value table ends up with no rows. -/
lemma error_iff_empty (p : List Holding) (raw : Raw) :
    computeValuation p raw = .error .indexError ↔
      (valueTable p (normalize (p.map Holding.ticker) raw)).rows = [] := by
  simp only [computeValuation]
  split
  · next he => simpa [List.isEmpty_iff] using he
  · next he => simp_all [List.isEmpty_iff]

/-- Every run either raises the index error or returns a result. -/
lemma error_or_ok (p : List Holding) (raw : Raw) :
    computeValuation p raw = .error .indexError ∨ ∃ r, computeValuation p raw = .ok r := by
  simp only [computeValuation]
  split
  · exact .inl rfl
  · exact .inr ⟨_, rfl⟩

/-! Shared concrete data: the two-asset scenario of the design document
(AAPL x10 and MSFT x5 over two dates), with its fully evaluated result. -/

def pW : List Holding := [⟨"AAPL", 10⟩, ⟨"MSFT", 5⟩]

def rawW : Raw :=
  .frame ⟨["AAPL", "MSFT"], [(0, [some 100, some 200]), (1, [some 110, some 210])]⟩

def resW : Result :=
  { values := ⟨["AAPL", "MSFT"], [(0, [some 1000, some 1000]), (1, [some 1100, some 1050])]⟩
    totals := [(0, 2000), (1, 2150)]
    currentTotal := 2150
    startTotal := 2000
    deltaAbs := 150
    deltaPct := .fin (15 / 2)
    composition := [("AAPL", some 1100), ("MSFT", some 1050)]
    warnings := [] }

lemma computeValuation_W : computeValuation pW rawW = .ok resW := by
  simp [computeValuation, valueTable, valueCols, normalize, promote, dropAllNa,
    cellOf, shareMap, rowTotal, scale100, fdivF, pW, rawW, resW, List.find?, List.filter]
  norm_num

/-! Claim C9: the valuation path never mutates the portfolio. -/

/-- C9: computing a valuation leaves the session portfolio exactly as it was —
the processing block only reads it. -/
theorem spec_c9_frame (s : SessionState) (raw : Raw) :
    (processData s raw).1.portfolio = s.portfolio := by
  unfold processData
  cases computeValuation s.portfolio raw <;> rfl

/-! Claim C2: what actually happens on an empty normalized table. -/

/-- C2, counterexample: on a price table whose only row is dropped, the code
fails with the generic IndexError of `iloc[-1]` — not with the distinct
`InsufficientDataError` the claim names. -/
theorem spec_c2_cex :
    computeValuation [⟨"AAPL", 1⟩] (.frame ⟨["AAPL"], [(0, [none])]⟩) =
        .error .indexError ∧
      Err.indexError ≠ Err.insufficientDataError := by
  constructor
  · rfl
  · decide

/-- C2, amended: the computation fails — with the blanket-caught IndexError,
not a distinct InsufficientDataError — exactly when the normalized table has
zero rows, and returns a result otherwise; since a row-wise skipna sum is
never missing, a separate no-usable-Total case does not arise. -/
theorem spec_c2_amended (p : List Holding) (raw : Raw) :
    (computeValuation p raw = .error .indexError ∨
      ∃ r, computeValuation p raw = .ok r) ∧
    (computeValuation p raw = .error .indexError ↔
      (valueTable p (normalize (p.map Holding.ticker) raw)).rows = []) := by
  exact ⟨error_or_ok p raw, error_iff_empty p raw⟩

/-- C2, witness: the amended statement instantiated on the dropped-row table,
where the error side of the equivalence fires. -/
theorem spec_c2_amended_witness :
    computeValuation [⟨"AAPL", (1 : ℚ)⟩] (.frame ⟨["AAPL"], [(0, [none])]⟩) =
      .error .indexError := by
  exact (spec_c2_amended [⟨"AAPL", (1 : ℚ)⟩] (.frame ⟨["AAPL"], [(0, [none])]⟩)).2.mpr
    (by rfl)

/-! Claim C3: the percent-change division. -/

/-- C3, counterexample: with a zero starting total and a positive delta, the
unguarded division of line 163 yields positive infinity — not an explicit
undefined/flagged value. -/
theorem spec_c3_cex :
    deltaPctOf
        (computeValuation [⟨"AAPL", 1⟩]
          (.frame ⟨["AAPL"], [(0, [some 0]), (1, [some 10])]⟩)) =
      some FV.posInf := by
  simp [deltaPctOf, computeValuation, valueTable, valueCols, normalize, promote,
    dropAllNa, cellOf, shareMap, rowTotal, scale100, fdivF, List.find?, List.filter]

/-- C3, amended: deltaAbs and deltaPct are computed exactly as the claim says
when the starting total is nonzero, but a zero starting total flows through the
unguarded IEEE division and surfaces as an infinity (or NaN when the delta is
also zero), never as an explicit undefined marker. -/
theorem spec_c3_amended (p : List Holding) (raw : Raw) (r : Result)
    (hok : computeValuation p raw = .ok r) :
    r.deltaAbs = r.currentTotal - r.startTotal ∧
    (r.startTotal ≠ 0 → r.deltaPct = .fin (r.deltaAbs / r.startTotal * 100)) ∧
    (r.startTotal = 0 →
      r.deltaPct = .posInf ∨ r.deltaPct = .negInf ∨ r.deltaPct = .nan) := by
  obtain ⟨-, -, -, -, -, habs, hpct, -, -⟩ := ok_fields p raw r hok
  refine ⟨habs, ?_, ?_⟩
  · intro h0
    rw [hpct]
    simp [fdivF, h0, scale100]
  · intro h0
    rw [hpct]
    simp only [fdivF, h0, if_pos rfl]
    split_ifs <;> simp [scale100]

/-- C3, witness: the amended statement on the two-asset scenario, whose
starting total 2000 is nonzero. -/
theorem spec_c3_amended_witness :
    resW.deltaAbs = resW.currentTotal - resW.startTotal ∧
    resW.deltaPct = .fin (resW.deltaAbs / resW.startTotal * 100) := by
  refine ⟨(spec_c3_amended pW rawW resW computeValuation_W).1, ?_⟩
  exact (spec_c3_amended pW rawW resW computeValuation_W).2.1 (by norm_num [resW])

/-! Claim C4: the first/last metrics, with their order lemmas. -/

/-- In a list of dated rows that is strictly increasing in the date, the head
carries the least date. -/
lemma head_min {l : List (Date × List (Option ℚ))}
    (hp : l.Pairwise (fun a b => a.1 < b.1)) (hne : l ≠ []) :
    ∀ x ∈ l, (l.head hne).1 ≤ x.1 := by
  cases l with
  | nil => cases hne rfl
  | cons a as =>
      intro x hx
      rcases List.mem_cons.mp hx with h | h
      · exact le_of_eq (by rw [h, List.head_cons])
      · exact le_of_lt ((List.pairwise_cons.mp hp).1 x h)

/-- In a list of dated rows that is strictly increasing in the date, the last
element carries the greatest date. -/
lemma getLast_max {l : List (Date × List (Option ℚ))}
    (hp : l.Pairwise (fun a b => a.1 < b.1)) (hne : l ≠ []) :
    ∀ x ∈ l, x.1 ≤ (l.getLast hne).1 := by
  induction l with
  | nil => cases hne rfl
  | cons a as ih =>
      intro x hx
      cases as with
      | nil =>
          rcases List.mem_singleton.mp hx with rfl
          exact le_of_eq rfl
      | cons b bs =>
          rcases List.mem_cons.mp hx with h | h
          · subst h
            rw [List.getLast_cons (by simp)]
            exact le_of_lt ((List.pairwise_cons.mp hp).1 _ (List.getLast_mem _))
          · rw [List.getLast_cons (by simp)]
            exact ih (List.pairwise_cons.mp hp).2 (by simp) x h

/-- The default-valued head accessor agrees with head on a nonempty list. -/
lemma headD_eq_head {l : List (Date × List (Option ℚ))} (h : l ≠ []) :
    l.headD (0, []) = l.head h := by
  cases l with
  | nil => cases h rfl
  | cons a as => rfl

/-- The default-valued last accessor agrees with getLast on a nonempty list. -/
lemma getLastD_eq_getLast {l : List (Date × List (Option ℚ))} (h : l ≠ []) :
    l.getLastD (0, []) = l.getLast h := by
  cases l with
  | nil => cases h rfl
  | cons a as => simp [List.getLastD_eq_getLast?, List.getLast?_eq_getLast (a :: as) (by simp)]

/-- The dates of the value table rows are strictly increasing whenever the
provider dates were: dropping rows and mapping to values preserves the
order. -/
lemma values_rows_sorted (p : List Holding) (raw : Raw) (r : Result)
    (hsort : ((promote (p.map Holding.ticker) raw).rows.map Prod.fst).Pairwise (· < ·))
    (hok : computeValuation p raw = .ok r) :
    r.values.rows.Pairwise (fun a b => a.1 < b.1) := by
  obtain ⟨hvals, -, -, -, -, -, -, -, -⟩ := ok_fields p raw r hok
  rw [hvals]
  have h1 : (promote (p.map Holding.ticker) raw).rows.Pairwise (fun a b => a.1 < b.1) :=
    List.pairwise_map.mp hsort
  have h2 := h1.filter (fun rr => rr.2.any (fun c => c.isSome))
  exact List.pairwise_map.mpr h2

/-- C4: on a date-sorted price table, startTotal is the Total of the first row
and currentTotal the Total of the last row, and those rows carry the least and
greatest dates of the table.  Since a skipna row sum is never missing, the
first row is precisely the earliest date with a non-missing Total and the last
row the latest. -/
theorem spec_c4_endpoints (p : List Holding) (raw : Raw) (r : Result)
    (hsort : ((promote (p.map Holding.ticker) raw).rows.map Prod.fst).Pairwise (· < ·))
    (hok : computeValuation p raw = .ok r) :
    ∃ hne : r.values.rows ≠ [],
      r.startTotal = rowTotal (r.values.rows.head hne).2 ∧
      r.currentTotal = rowTotal (r.values.rows.getLast hne).2 ∧
      ∀ row ∈ r.values.rows,
        (r.values.rows.head hne).1 ≤ row.1 ∧ row.1 ≤ (r.values.rows.getLast hne).1 := by
  obtain ⟨-, hne, -, hcur, hstart, -, -, -, -⟩ := ok_fields p raw r hok
  have hp := values_rows_sorted p raw r hsort hok
  refine ⟨hne, ?_, ?_, ?_⟩
  · rw [hstart, headD_eq_head hne]
  · rw [hcur, getLastD_eq_getLast hne]
  · intro row hrow
    exact ⟨head_min hp hne row hrow, getLast_max hp hne row hrow⟩

/-- C4, witness: the endpoint metrics of the two-asset scenario. -/
theorem spec_c4_endpoints_witness :
    ∃ hne : resW.values.rows ≠ [],
      resW.startTotal = rowTotal (resW.values.rows.head hne).2 ∧
      resW.currentTotal = rowTotal (resW.values.rows.getLast hne).2 := by
  obtain ⟨hne, h1, h2, -⟩ := spec_c4_endpoints pW rawW resW (by decide) computeValuation_W
  exact ⟨hne, h1, h2⟩

/-! Claim C1: the Total column against the per-ticker cells. -/

/-- Under distinct column names, looking a column up by its name reads exactly
the cell at its position. -/
lemma cellOf_get {cs : List String} {vs : List (Option ℚ)} {j : ℕ}
    (hnd : cs.Nodup) (hlen : vs.length = cs.length) (hj : j < cs.length) :
    cellOf cs vs (cs.get ⟨j, hj⟩) = vs.getD j none := by
  induction cs generalizing vs j with
  | nil => simp at hj
  | cons c cs ih =>
      cases vs with
      | nil => simp at hlen
      | cons v vs =>
          cases j with
          | zero => simp [cellOf]
          | succ j =>
              have hj' : j < cs.length := Nat.lt_of_succ_lt_succ hj
              have hlen' : vs.length = cs.length := Nat.succ_injective (by simpa using hlen)
              have hnd' := List.nodup_cons.mp hnd
              have hne : c ≠ cs.get ⟨j, hj'⟩ := fun he => hnd'.1 (he ▸ List.get_mem cs j hj')
              have hstep : cellOf (c :: cs) (v :: vs) (cs.get ⟨j, hj'⟩)
                  = cellOf cs vs (cs.get ⟨j, hj'⟩) := by
                simp only [cellOf]
                exact if_neg hne
              exact hstep.trans (ih hnd'.2 hlen' hj')

/-- A named lookup that finds a value only reads an actually present cell. -/
lemma any_isSome_of_cellOf {cs : List String} {vs : List (Option ℚ)} {t : String}
    (h : (cellOf cs vs t).isSome) : vs.any Option.isSome := by
  induction cs generalizing vs with
  | nil => simp [cellOf] at h
  | cons c cs ih =>
      cases vs with
      | nil => simp [cellOf] at h
      | cons v vs =>
          by_cases hct : c = t
          · simp only [cellOf, if_pos hct] at h
            simp [h]
          · simp only [cellOf, if_neg hct] at h
            simp [ih h]

/-- C1: the totals column pairs every date of the value table with the sum of
the non-missing per-ticker values at that date, and no date whose held tickers
are all missing survives into the table. -/
theorem spec_c1_total (p : List Holding) (raw : Raw) (r : Result)
    (hwf : WF (promote (p.map Holding.ticker) raw))
    (hsub : ∀ c ∈ (promote (p.map Holding.ticker) raw).cols, c ∈ p.map Holding.ticker)
    (hok : computeValuation p raw = .ok r) :
    r.totals = r.values.rows.map (fun row => (row.1, (row.2.filterMap id).sum)) ∧
    ∀ row ∈ r.values.rows, row.2.any Option.isSome := by
  obtain ⟨hvals, -, htot, -, -, -, -, -, -⟩ := ok_fields p raw r hok
  refine ⟨by simpa [rowTotal] using htot, ?_⟩
  intro row hrow
  rw [hvals] at hrow
  obtain ⟨prow, hpmem, rfl⟩ := List.mem_map.mp hrow
  have hfil := List.mem_filter.mp hpmem
  obtain ⟨cell, hcellmem, hcs⟩ := List.any_eq_true.mp hfil.2
  obtain ⟨j, hj, hget⟩ := List.mem_iff_getElem.mp hcellmem
  have hlen : prow.2.length = (promote (p.map Holding.ticker) raw).cols.length :=
    hwf.2 prow hfil.1
  have hjc : j < (promote (p.map Holding.ticker) raw).cols.length := hlen ▸ hj
  set cols := (promote (p.map Holding.ticker) raw).cols with hcols
  have hcell : cellOf cols prow.2 (cols.get ⟨j, hjc⟩) = cell := by
    rw [cellOf_get hwf.1 hlen hjc, List.getD_eq_getElem _ _ hj, hget]
  have htk : cols.get ⟨j, hjc⟩ ∈ valueCols (p.map Holding.ticker)
      (normalize (p.map Holding.ticker) raw) := by
    refine List.mem_filter.mpr ⟨hsub _ (List.get_mem cols j hjc), ?_⟩
    simp only [normalize, dropAllNa]
    simp
  refine List.any_eq_true.mpr ⟨_, List.mem_map_of_mem _ htk, ?_⟩
  have hdfcols : (normalize (p.map Holding.ticker) raw).cols = cols := rfl
  rw [hdfcols, hcell]
  simpa using hcs

/-- C1, witness: the totals/missing-row invariant on the two-asset scenario. -/
theorem spec_c1_total_witness :
    resW.totals = resW.values.rows.map (fun row => (row.1, (row.2.filterMap id).sum)) ∧
    ∀ row ∈ resW.values.rows, row.2.any Option.isSome :=
  spec_c1_total pW rawW resW ⟨by decide, by decide⟩ (by decide) computeValuation_W

/-! Claim C5: the composition against the last row. -/

/-- Every row of the value table has exactly one cell per value column. -/
lemma row_cells_shape (p : List Holding) (df : Df) :
    ∀ row ∈ (valueTable p df).rows, row.2.length = (valueTable p df).cols.length := by
  intro row hrow
  obtain ⟨prow, -, rfl⟩ := List.mem_map.mp hrow
  simp [valueTable]

/-- Projecting the values out of a zip of equal length recovers exactly the
non-missing cells. -/
lemma filterMap_snd_zip {α : Type} :
    ∀ (l1 : List α) (l2 : List (Option ℚ)), l1.length = l2.length →
      (l1.zip l2).filterMap Prod.snd = l2.filterMap id
  | [], [], _ => rfl
  | [], _ :: _, h => by simp at h
  | _ :: _, [], h => by simp at h
  | a :: l1, b :: l2, h => by
      have := filterMap_snd_zip l1 l2 (Nat.succ_injective h)
      cases b <;> simp [List.zip_cons_cons, List.filterMap_cons, this]

/-- The default-valued last accessor picks an element of a nonempty list. -/
lemma getLastD_mem {l : List (Date × List (Option ℚ))} (h : l ≠ []) :
    l.getLastD (0, []) ∈ l := by
  rw [getLastD_eq_getLast h]
  exact List.getLast_mem h

/-- C5, counterexample: MSFT has no price at the latest date, yet it appears in
the composition — with a missing value — instead of being excluded. -/
theorem spec_c5_cex :
    compositionOf (computeValuation [⟨"AAPL", 10⟩, ⟨"MSFT", 5⟩]
        (.frame ⟨["AAPL", "MSFT"], [(0, [some 2, some 3]), (1, [some 4, none])]⟩)) =
      some [("AAPL", some 40), ("MSFT", (none : Option ℚ))] := by
  simp [compositionOf, computeValuation, valueTable, valueCols, normalize, promote,
    dropAllNa, cellOf, shareMap, rowTotal, scale100, fdivF, List.find?, List.filter]
  norm_num

/-- C5, amended: the composition lists every value column — including tickers
whose value at the latest date is missing, which keep a missing marker rather
than being excluded — paired with the last row's cells, and the non-missing
composition values sum exactly to currentTotal. -/
theorem spec_c5_amended (p : List Holding) (raw : Raw) (r : Result)
    (hok : computeValuation p raw = .ok r) :
    r.composition.map Prod.fst = r.values.cols ∧
    r.composition.map Prod.snd = (r.values.rows.getLastD (0, [])).2 ∧
    (r.composition.filterMap Prod.snd).sum = r.currentTotal := by
  obtain ⟨hvals, hne, -, hcur, -, -, -, hcomp, -⟩ := ok_fields p raw r hok
  have hmem : r.values.rows.getLastD (0, []) ∈ r.values.rows := getLastD_mem hne
  have hshape : (r.values.rows.getLastD (0, [])).2.length = r.values.cols.length := by
    rw [hvals] at hmem ⊢
    exact row_cells_shape p _ _ hmem
  refine ⟨?_, ?_, ?_⟩
  · rw [hcomp]
    exact List.map_fst_zip _ _ (le_of_eq hshape.symm)
  · rw [hcomp]
    exact List.map_snd_zip _ _ (le_of_eq hshape)
  · rw [hcomp, filterMap_snd_zip _ _ hshape.symm, hcur]
    rfl

/-- C5, witness: the amended composition facts on the two-asset scenario. -/
theorem spec_c5_amended_witness :
    resW.composition.map Prod.fst = resW.values.cols ∧
    (resW.composition.filterMap Prod.snd).sum = resW.currentTotal :=
  ⟨(spec_c5_amended pW rawW resW computeValuation_W).1,
   (spec_c5_amended pW rawW resW computeValuation_W).2.2⟩

/-! Claim C6: a held ticker absent from the price table. -/

/-- Filtering out elements the search predicate can never accept does not
change the result of a search. -/
lemma find?_filter_of_imp {α : Type} (l : List α) (q rb : α → Bool)
    (h : ∀ x, q x = true → rb x = true) : (l.filter rb).find? q = l.find? q := by
  induction l with
  | nil => rfl
  | cons a l ih =>
      by_cases hr : rb a = true
      · rw [List.filter_cons_of_pos hr]
        by_cases hq : q a = true
        · rw [List.find?_cons_of_pos _ hq, List.find?_cons_of_pos _ hq]
        · rw [List.find?_cons_of_neg _ (by simpa using hq),
            List.find?_cons_of_neg _ (by simpa using hq), ih]
      · rw [List.filter_cons_of_neg (by simpa using hr)]
        have hq : ¬q a = true := fun hqa => hr (h a hqa)
        rw [List.find?_cons_of_neg _ (by simpa using hq), ih]

/-- Removing the holdings of one ticker from the portfolio leaves the share
map unchanged at every other ticker. -/
lemma shareMap_filter (p : List Holding) (t t' : String) (hne : t' ≠ t) :
    shareMap (p.filter (fun h => h.ticker != t)) t' = shareMap p t' := by
  unfold shareMap
  rw [← List.filter_reverse, find?_filter_of_imp]
  intro x hq
  have hx : x.ticker = t' := by simpa using hq
  simp [hx, hne]

/-- Removing a ticker that has no price column leaves the value columns
unchanged. -/
lemma valueCols_filter (tickers : List String) (df : Df) (t : String)
    (ht : t ∉ df.cols) :
    valueCols (tickers.filter (fun s => s != t)) df = valueCols tickers df := by
  unfold valueCols
  rw [List.filter_filter]
  apply List.filter_congr
  intro x hx
  by_cases hc : df.cols.contains x = true
  · have hxm : x ∈ df.cols := by simpa using hc
    have : x ≠ t := fun he => ht (he ▸ hxm)
    simp [hc, this]
  · simp only [Bool.eq_false_iff.mpr hc, Bool.false_and]

/-- C6, counterexample: with ZZZZ held but absent from the price data, the
valuation completes on AAPL alone and the result carries no warning at all —
no UnknownTickerWarning is surfaced anywhere in the source. -/
theorem spec_c6_cex :
    warningsOf (computeValuation [⟨"AAPL", 1⟩, ⟨"ZZZZ", 2⟩]
        (.frame ⟨["AAPL"], [(0, [some 5])]⟩)) = some [] := by
  simp [warningsOf, computeValuation, valueTable, valueCols, normalize, promote,
    dropAllNa, cellOf, shareMap, rowTotal, scale100, fdivF, List.find?, List.filter]

/-- C6, amended: a held ticker with no price column is skipped silently — the
result is identical to the one computed from the portfolio without it, the
ticker shows up neither among the value columns nor in the composition, the
remaining tickers are valued normally, and no warning is surfaced (the
warnings field is always empty; the source defines no UnknownTickerWarning). -/
theorem spec_c6_amended (p : List Holding) (df : Df) (t : String)
    (ht : t ∉ df.cols) :
    computeValuation p (.frame df) =
      computeValuation (p.filter (fun h => h.ticker != t)) (.frame df) ∧
    ∀ r, computeValuation p (.frame df) = .ok r →
      t ∉ r.values.cols ∧ (∀ pr ∈ r.composition, pr.1 ≠ t) ∧ r.warnings = [] := by
  have htick : (p.filter (fun h => h.ticker != t)).map Holding.ticker
      = (p.map Holding.ticker).filter (fun s => s != t) := by
    induction p with
    | nil => rfl
    | cons a p ih =>
        by_cases ha : a.ticker = t
        · simp [ha, ih]
        · simp [List.filter_cons, ha, ih]
  have hdn : t ∉ (dropAllNa df).cols := ht
  have hvc : valueCols ((p.filter (fun h => h.ticker != t)).map Holding.ticker)
      (dropAllNa df) = valueCols (p.map Holding.ticker) (dropAllNa df) := by
    rw [htick]
    exact valueCols_filter _ _ _ hdn
  have hvt : valueTable (p.filter (fun h => h.ticker != t)) (dropAllNa df)
      = valueTable p (dropAllNa df) := by
    unfold valueTable
    rw [hvc]
    refine congrArg _ ?_
    apply List.map_congr_left
    intro rr hrr
    refine congrArg _ ?_
    apply List.map_congr_left
    intro t' ht'
    have ht'mem : t' ∈ (dropAllNa df).cols := by
      have := List.mem_filter.mp ht'
      simpa using this.2
    have hne : t' ≠ t := fun he => hdn (he ▸ ht'mem)
    rw [shareMap_filter p t t' hne]
  constructor
  · unfold computeValuation
    simp only [normalize, promote]
    rw [hvt]
  · intro r hok
    obtain ⟨hvals, -, -, -, -, -, -, hcomp, hwarn⟩ := ok_fields p (.frame df) r hok
    have hcols : t ∉ r.values.cols := by
      rw [hvals]
      intro hmem
      have := List.mem_filter.mp hmem
      exact ht (by simpa using this.2)
    refine ⟨hcols, ?_, hwarn⟩
    intro pr hpr
    rcases pr with ⟨a, b⟩
    rw [hcomp] at hpr
    intro he
    exact hcols (he ▸ (List.of_mem_zip hpr).1)

/-- C6, witness: scrubbing the priceless ZZZZ from the portfolio leaves the
valuation literally unchanged. -/
theorem spec_c6_amended_witness :
    computeValuation [⟨"AAPL", (1 : ℚ)⟩, ⟨"ZZZZ", 2⟩]
        (.frame ⟨["AAPL"], [(0, [some 5])]⟩) =
      computeValuation ([⟨"AAPL", (1 : ℚ)⟩, ⟨"ZZZZ", 2⟩].filter (fun h => h.ticker != "ZZZZ"))
        (.frame ⟨["AAPL"], [(0, [some 5])]⟩) :=
  (spec_c6_amended [⟨"AAPL", (1 : ℚ)⟩, ⟨"ZZZZ", 2⟩] ⟨["AAPL"], [(0, [some 5])]⟩ "ZZZZ"
    (by decide)).1

/-! Claim C7: the normalizer. -/

/-- C7: a single series is promoted to a one-column table named by the sole
requested ticker, and — on a well-formed table whose columns all belong to the
requested tickers — dropping all-NaN rows removes exactly the rows where every
requested ticker's value is missing, keeping the surviving rows cell for
cell. -/
theorem spec_c7_normalizer (t : String) (s : List (Date × Option ℚ))
    (tickers : List String) (df : Df) (hwf : WF df)
    (hsub : ∀ c ∈ df.cols, c ∈ tickers) :
    promote [t] (.series s) = ⟨[t], s.map (fun r => (r.1, [r.2]))⟩ ∧
    (dropAllNa df).cols = df.cols ∧
    (dropAllNa df).rows =
      df.rows.filter
        (fun row => tickers.any (fun tk => (cellOf df.cols row.2 tk).isSome)) := by
  refine ⟨rfl, rfl, ?_⟩
  apply List.filter_congr
  intro row hrow
  have hiff : (row.2.any (fun c => c.isSome)) = true ↔
      (tickers.any (fun tk => (cellOf df.cols row.2 tk).isSome)) = true := by
    constructor
    · intro h
      obtain ⟨cell, hcellmem, hcs⟩ := List.any_eq_true.mp h
      obtain ⟨j, hj, hget⟩ := List.mem_iff_getElem.mp hcellmem
      have hlen : row.2.length = df.cols.length := hwf.2 row hrow
      have hjc : j < df.cols.length := hlen ▸ hj
      refine List.any_eq_true.mpr ⟨df.cols.get ⟨j, hjc⟩, hsub _ (List.get_mem df.cols j hjc), ?_⟩
      rw [cellOf_get hwf.1 hlen hjc, List.getD_eq_getElem _ _ hj, hget]
      exact hcs
    · intro h
      obtain ⟨tk, -, hcs⟩ := List.any_eq_true.mp h
      exact any_isSome_of_cellOf hcs
  cases h1 : row.2.any (fun c => c.isSome) with
  | true => exact (hiff.mp h1).symm
  | false =>
      cases h2 : tickers.any (fun tk => (cellOf df.cols row.2 tk).isSome) with
      | true => exact absurd (hiff.mpr h2) (by simp [h1])
      | false => rfl

/-- C7, witness: the promotion and the drop on a concrete series and a
concrete partially missing two-ticker table. -/
theorem spec_c7_normalizer_witness :
    promote ["AAPL"] (.series [(0, some 3), (1, none)]) =
      ⟨["AAPL"], [(0, [some 3]), (1, [none])]⟩ ∧
    (dropAllNa ⟨["AAPL", "MSFT"],
        [(0, [some 1, none]), (1, [none, none]), (2, [none, some 4])]⟩).rows =
      (⟨["AAPL", "MSFT"],
        [(0, [some 1, none]), (1, [none, none]), (2, [none, some 4])]⟩ : Df).rows.filter
        (fun row => ["AAPL", "MSFT"].any
          (fun tk => (cellOf ["AAPL", "MSFT"] row.2 tk).isSome)) := by
  have h := spec_c7_normalizer "AAPL" [(0, some 3), (1, none)] ["AAPL", "MSFT"]
    ⟨["AAPL", "MSFT"], [(0, [some 1, none]), (1, [none, none]), (2, [none, some 4])]⟩
    ⟨by decide, by decide⟩ (by decide)
  exact ⟨h.1, h.2.2⟩

/-! Claim C8: ticker uniqueness across the two ingestion paths. -/

/-- An uploaded file naming the same ticker twice. -/
def dupCsv : Str := "ticker,shares\nAAPL,1\nAAPL,2\n".data

/-- The records that file loads into: two holdings of the same ticker. -/
def dupRecs : List CsvRec :=
  [[("ticker".data, Cell.str "AAPL".data), ("shares".data, Cell.num 1)],
   [("ticker".data, Cell.str "AAPL".data), ("shares".data, Cell.num 2)]]

/-- C8, counterexample: starting from a portfolio satisfying the unique-ticker
invariant (here the empty one), the bulk CSV load installs the file's records
verbatim — including a duplicated ticker — so the invariant is broken: the
upload path of lines 52-54 checks column names only, never uniqueness. -/
theorem spec_c8_cex :
    uploadPortfolio [] dupCsv = dupRecs ∧ ¬ (dupRecs.map recTicker).Nodup := by
  constructor
  · decide
  · decide

/-- C8, amended: the interactive add path does preserve ticker uniqueness (it
refuses a ticker that is already held), but the bulk CSV load installs
whatever records parse, with no uniqueness validation at all. -/
theorem spec_c8_amended (p : List Holding) (t : String) (q : ℚ) (b : Bool)
    (hu : (p.map Holding.ticker).Nodup) (cur : List CsvRec) (file : Str)
    (recs : List CsvRec) (hload : loadPortfolio file = some recs) :
    ((addStock p t q b).map Holding.ticker).Nodup ∧ uploadPortfolio cur file = recs := by
  constructor
  · unfold addStock
    split_ifs with h1 h2 h3
    · exact hu
    · exact hu
    · have hnotin : t ∉ p.map Holding.ticker := by
        intro hmem
        obtain ⟨h, hh, hticker⟩ := List.mem_map.mp hmem
        exact h2 (List.any_eq_true.mpr ⟨h, hh, by simp [hticker]⟩)
      simp only [List.map_append, List.map_cons, List.map_nil]
      rw [List.nodup_append]
      refine ⟨hu, List.nodup_singleton t, ?_⟩
      intro a ha hb
      rcases List.mem_singleton.mp hb with rfl
      exact hnotin ha
    · exact hu
  · unfold uploadPortfolio
    rw [hload]
    rfl

/-- C8, witness: the add path keeps MSFT-after-AAPL unique, and a parsed
upload is installed verbatim. -/
theorem spec_c8_amended_witness :
    ((addStock [⟨"AAPL", (1 : ℚ)⟩] "MSFT" 2 true).map Holding.ticker).Nodup ∧
      uploadPortfolio [] dupCsv = dupRecs :=
  spec_c8_amended [⟨"AAPL", (1 : ℚ)⟩] "MSFT" 2 true (by decide) [] dupCsv dupRecs (by decide)

/-! Claim C10: digit-level facts for the CSV round trip. -/

/-- The value of a little-endian digit list. -/
def digitsVal : List ℕ → ℕ
  | [] => 0
  | d :: l => d + 10 * digitsVal l

lemma digitChar_toNat {d : ℕ} (hd : d < 10) : (digitChar d).toNat = 48 + d := by
  interval_cases d <;> decide

lemma isDigitCh_digitChar {d : ℕ} (hd : d < 10) : isDigitCh (digitChar d) = true := by
  interval_cases d <;> decide

lemma isDigitCh_ne {ch : Char} (h : isDigitCh ch = true) :
    ch ≠ '.' ∧ ch ≠ ',' ∧ ch ≠ '\n' ∧ ch ≠ '-' := by
  refine ⟨?_, ?_, ?_, ?_⟩ <;> (intro he; subst he; revert h; decide)

lemma natDigitsAux_congr : ∀ (f1 f2 n : ℕ), n ≤ f1 → n ≤ f2 →
    natDigitsAux f1 n = natDigitsAux f2 n := by
  intro f1
  induction f1 with
  | zero =>
      intro f2 n h1 h2
      interval_cases n
      cases f2 <;> rfl
  | succ f1 ih =>
      intro f2 n h1 h2
      cases n with
      | zero => cases f2 <;> rfl
      | succ n =>
          cases f2 with
          | zero => exact absurd h2 (by omega)
          | succ f2 =>
              have hdiv : (n + 1) / 10 < n + 1 := Nat.div_lt_self (by omega) (by norm_num)
              simp only [natDigitsAux]
              rw [ih f2 ((n + 1) / 10) (by omega) (by omega)]

lemma natDigits_succ (n : ℕ) (hn : n ≠ 0) :
    natDigits n = (n % 10) :: natDigits (n / 10) := by
  obtain ⟨m, rfl⟩ := Nat.exists_eq_succ_of_ne_zero hn
  have hdiv : (m + 1) / 10 < m + 1 := Nat.div_lt_self (by omega) (by norm_num)
  simp only [natDigits, natDigitsAux]
  rw [natDigitsAux_congr m ((m + 1) / 10) ((m + 1) / 10) (by omega) le_rfl]

lemma digitsVal_natDigits (n : ℕ) : digitsVal (natDigits n) = n := by
  induction n using Nat.strong_induction_on with
  | _ n ih =>
      by_cases hn : n = 0
      · subst hn; rfl
      · rw [natDigits_succ n hn]
        have hdiv : n / 10 < n := Nat.div_lt_self (Nat.pos_of_ne_zero hn) (by norm_num)
        simp only [digitsVal, ih (n / 10) hdiv]
        omega

lemma natDigits_lt (n : ℕ) : ∀ d ∈ natDigits n, d < 10 := by
  induction n using Nat.strong_induction_on with
  | _ n ih =>
      by_cases hn : n = 0
      · subst hn; intro d hd; simp [natDigits, natDigitsAux] at hd
      · rw [natDigits_succ n hn]
        intro d hd
        rcases List.mem_cons.mp hd with rfl | hd
        · exact Nat.mod_lt _ (by norm_num)
        · exact ih (n / 10) (Nat.div_lt_self (Nat.pos_of_ne_zero hn) (by norm_num)) d hd

lemma natDigits_length_le : ∀ (k n : ℕ), n < 10 ^ k → (natDigits n).length ≤ k := by
  intro k
  induction k with
  | zero =>
      intro n hn
      interval_cases n
      simp [natDigits, natDigitsAux]
  | succ k ih =>
      intro n hn
      by_cases h0 : n = 0
      · subst h0; simp [natDigits, natDigitsAux]
      · rw [natDigits_succ n h0]
        have : n / 10 < 10 ^ k := by
          apply Nat.div_lt_of_lt_mul
          calc n < 10 ^ (k + 1) := hn
            _ = 10 * 10 ^ k := by ring
        simpa using ih (n / 10) this

lemma natDigits_ne_nil (n : ℕ) (hn : n ≠ 0) : natDigits n ≠ [] := by
  rw [natDigits_succ n hn]
  simp

lemma parseNatAux_append (acc : ℕ) (xs ys : Str) :
    parseNatAux acc (xs ++ ys) = (parseNatAux acc xs).bind (fun a => parseNatAux a ys) := by
  induction xs generalizing acc with
  | nil => rfl
  | cons ch xs ih =>
      simp only [List.cons_append, parseNatAux]
      by_cases hch : isDigitCh ch = true
      · rw [if_pos hch, if_pos hch]
        exact ih _
      · rw [if_neg hch, if_neg hch]
        rfl

lemma parseNatAux_digits (l : List ℕ) (hl : ∀ d ∈ l, d < 10) (acc : ℕ) :
    parseNatAux acc (l.reverse.map digitChar) = some (acc * 10 ^ l.length + digitsVal l) := by
  induction l generalizing acc with
  | nil => simp [parseNatAux, digitsVal]
  | cons d l ih =>
      have hd : d < 10 := hl d (by simp)
      have hl' : ∀ x ∈ l, x < 10 := fun x hx => hl x (by simp [hx])
      rw [List.reverse_cons, List.map_append, parseNatAux_append, ih hl']
      simp only [Option.bind_some, List.map_cons, List.map_nil, parseNatAux,
        if_pos (isDigitCh_digitChar hd), digitChar_toNat hd]
      refine congrArg some ?_
      simp only [digitsVal, List.length_cons]
      ring_nf
      omega

lemma parseNat_eq_aux (s : Str) (h : s ≠ []) : parseNat s = parseNatAux 0 s := by
  cases s with
  | nil => cases h rfl
  | cons x xs => rfl

lemma printNat_ne_nil (n : ℕ) : printNat n ≠ [] := by
  unfold printNat
  split
  · simp
  · next hn =>
      simpa using natDigits_ne_nil n hn

lemma parseNat_printNat (n : ℕ) : parseNat (printNat n) = some n := by
  by_cases hn : n = 0
  · subst hn; decide
  · rw [parseNat_eq_aux _ (printNat_ne_nil n), printNat, if_neg hn,
      parseNatAux_digits (natDigits n) (natDigits_lt n) 0]
    simp [digitsVal_natDigits]

lemma printNat_chars (n : ℕ) : ∀ ch ∈ printNat n, isDigitCh ch = true := by
  intro ch hch
  unfold printNat at hch
  split at hch
  · rcases List.mem_singleton.mp hch with rfl
    decide
  · obtain ⟨d, hd, rfl⟩ := List.mem_map.mp hch
    exact isDigitCh_digitChar (natDigits_lt n d (List.mem_reverse.mp hd))

lemma padDigits_eq (f k : ℕ) :
    padDigits f k =
      List.replicate (k - (natDigits f).length) '0'
        ++ (natDigits f).reverse.map digitChar := by
  unfold padDigits
  rw [List.reverse_append, List.map_append, List.reverse_replicate, List.map_replicate]
  rfl

lemma padDigits_chars (f k : ℕ) : ∀ ch ∈ padDigits f k, isDigitCh ch = true := by
  intro ch hch
  rw [padDigits_eq] at hch
  rcases List.mem_append.mp hch with h | h
  · rcases List.eq_of_mem_replicate h with rfl
    decide
  · obtain ⟨d, hd, rfl⟩ := List.mem_map.mp h
    exact isDigitCh_digitChar (natDigits_lt f d (List.mem_reverse.mp hd))

lemma padDigits_length (f k : ℕ) (hf : f < 10 ^ k) : (padDigits f k).length = k := by
  rw [padDigits_eq]
  have := natDigits_length_le k f hf
  simp only [List.length_append, List.length_replicate, List.length_map, List.length_reverse]
  omega

lemma parseNatAux_zeros (r : ℕ) (s : Str) :
    parseNatAux 0 (List.replicate r '0' ++ s) = parseNatAux 0 s := by
  induction r with
  | zero => rfl
  | succ r ih =>
      rw [List.replicate_succ, List.cons_append]
      simpa [parseNatAux] using ih

lemma padDigits_ne_nil (f k : ℕ) (hk : 0 < k) (hf : f < 10 ^ k) : padDigits f k ≠ [] := by
  intro he
  have := padDigits_length f k hf
  rw [he] at this
  simp at this
  omega

lemma parseNat_padDigits (f k : ℕ) (hk : 0 < k) (hf : f < 10 ^ k) :
    parseNat (padDigits f k) = some f := by
  rw [parseNat_eq_aux _ (padDigits_ne_nil f k hk hf), padDigits_eq, parseNatAux_zeros,
    parseNatAux_digits (natDigits f) (natDigits_lt f) 0]
  simp [digitsVal_natDigits]

/-! Splitting lemmas and the numeric round trip. -/

lemma headD_append {xs : Str} (ys : Str) (h : xs ≠ []) (d : Char) :
    (xs ++ ys).headD d = xs.headD d := by
  cases xs with
  | nil => cases h rfl
  | cons a as => rfl

lemma headD_mem {xs : Str} (h : xs ≠ []) (d : Char) : xs.headD d ∈ xs := by
  cases xs with
  | nil => cases h rfl
  | cons a as => simp

lemma splitCh_no_sep (c : Char) : ∀ (s : Str), c ∉ s → splitCh c s = [s] := by
  intro s
  induction s with
  | nil => intro h; rfl
  | cons a as ih =>
      intro h
      have hac : a ≠ c := fun he => h (he ▸ List.mem_cons_self a as)
      have has : c ∉ as := fun hm => h (List.mem_cons_of_mem a hm)
      simp only [splitCh, if_neg hac, ih has]
      rfl

lemma splitCh_append (c : Char) : ∀ (xs ys : Str), c ∉ xs →
    splitCh c (xs ++ c :: ys) = xs :: splitCh c ys := by
  intro xs
  induction xs with
  | nil =>
      intro ys h
      simp [splitCh]
  | cons a as ih =>
      intro ys h
      have hac : a ≠ c := fun he => h (he ▸ List.mem_cons_self a as)
      have has : c ∉ as := fun hm => h (List.mem_cons_of_mem a hm)
      simp only [List.cons_append, splitCh, List.append_eq, if_neg hac, ih ys has]
      rfl

lemma decExpAux_den (q : ℚ) : ∀ (fuel k : ℕ),
    (∃ j, j < fuel ∧ (q * 10 ^ (k + j)).den = 1) →
    (q * 10 ^ decExpAux fuel k q).den = 1 := by
  intro fuel
  induction fuel with
  | zero =>
      rintro k ⟨j, hj, -⟩
      exact absurd hj (by omega)
  | succ fuel ih =>
      rintro k ⟨j, hj, hden⟩
      simp only [decExpAux]
      split
      · next h => exact h
      · next h =>
          apply ih (k + 1)
          cases j with
          | zero => exact absurd (by simpa using hden) h
          | succ j =>
              refine ⟨j, by omega, ?_⟩
              rw [show k + 1 + j = k + (j + 1) by omega]
              exact hden

lemma decExp_den (q : ℚ) (hd : IsDec q) : (q * 10 ^ decExp q).den = 1 := by
  obtain ⟨k, hk, hden⟩ := hd
  exact decExpAux_den q 1200 0 ⟨k, hk, by simpa using hden⟩

lemma printQ_ne_nil (q : ℚ) : printQ q ≠ [] := by
  simp only [printQ]
  split
  · simp
  · intro he
    rcases List.append_eq_nil.mp he with ⟨h1, -⟩
    exact printNat_ne_nil _ h1

lemma printQ_chars (q : ℚ) : ∀ ch ∈ printQ q, isDigitCh ch = true ∨ ch = '.' := by
  intro ch hch
  simp only [printQ] at hch
  split at hch
  · rcases List.mem_append.mp hch with h | h
    · exact .inl (printNat_chars _ ch h)
    · rcases List.mem_cons.mp h with rfl | h
      · exact .inr rfl
      · rcases List.mem_singleton.mp h with rfl
        exact .inl (by decide)
  · rcases List.mem_append.mp hch with h | h
    · exact .inl (printNat_chars _ ch h)
    · rcases List.mem_cons.mp h with rfl | h
      · exact .inr rfl
      · exact .inl (padDigits_chars _ _ ch h)

lemma printQ_no_comma (q : ℚ) : ',' ∉ printQ q := by
  intro h
  rcases printQ_chars q ',' h with h' | h'
  · exact absurd h' (by decide)
  · exact absurd h' (by decide)

lemma printQ_no_newline (q : ℚ) : '\n' ∉ printQ q := by
  intro h
  rcases printQ_chars q '\n' h with h' | h'
  · exact absurd h' (by decide)
  · exact absurd h' (by decide)

lemma printNat_no_dot (n : ℕ) : '.' ∉ printNat n := by
  intro h
  have := printNat_chars n '.' h
  exact absurd this (by decide)

/-- A string starting with a digit is not sign-prefixed, so the parser goes
straight to the unsigned form. -/
lemma parseQ_of_head_digit (s : Str) (hdig : isDigitCh (s.headD ' ') = true) :
    parseQ s = parseQPos s := by
  unfold parseQ
  rw [if_neg (isDigitCh_ne hdig).2.2.2]

/-- A string without exponent markers is not split by the exponent scanner. -/
lemma splitE_none_of (s : Str) (h : ∀ c ∈ s, c ≠ 'e' ∧ c ≠ 'E') : splitE s = none := by
  induction s with
  | nil => rfl
  | cons c cs ih =>
      have hc := h c (by simp)
      unfold splitE
      rw [if_neg (by simp [hc.1, hc.2]), ih (fun x hx => h x (by simp [hx]))]
      rfl

/-- Digit and point characters are never exponent markers. -/
lemma no_expChar_of_digit_dot (s : Str) (h : ∀ c ∈ s, isDigitCh c = true ∨ c = '.') :
    ∀ c ∈ s, c ≠ 'e' ∧ c ≠ 'E' := by
  intro c hc
  rcases h c hc with h1 | rfl
  · constructor <;> (intro he; subst he; revert h1; decide)
  · exact ⟨by decide, by decide⟩

/-- Evaluation of the unsigned parser on an exponent-free two-part decimal
split. -/
lemma parseQPos_eval (s a b : Str) (hnoe : splitE s = none) (hs : splitCh '.' s = [a, b])
    (ha : a ≠ []) (hb : b ≠ []) (na nb : ℕ) (hpa : parseNat a = some na)
    (hpb : parseNat b = some nb) :
    parseQPos s = some ((na : ℚ) + (nb : ℚ) / 10 ^ b.length) := by
  unfold parseQPos
  rw [hnoe]
  show parseMant s = _
  unfold parseMant
  rw [hs]
  simp only [if_neg (by simp [ha] : ¬(a = [] && b = []) = true), hpa, hpb,
    if_neg ha, if_neg hb]

/-- Parsing inverts printing on nonnegative finite-decimal rationals — the
exactness behind pandas' float serialization round trip. -/
lemma parseQ_printQ (q : ℚ) (hq : 0 ≤ q) (hd : IsDec q) : parseQ (printQ q) = some q := by
  have hden := decExp_den q hd
  have hnumnn : 0 ≤ (q * 10 ^ decExp q).num := Rat.num_nonneg.mpr (by positivity)
  have hmq : (((q * 10 ^ decExp q).num.toNat : ℕ) : ℚ) = q * 10 ^ decExp q := by
    rw [← (Rat.den_eq_one_iff _).mp hden]
    exact_mod_cast Int.toNat_of_nonneg hnumnn
  have hpq : printQ q =
      (if decExp q = 0 then printNat ((q * 10 ^ decExp q).num.toNat) ++ ['.', '0']
       else printNat ((q * 10 ^ decExp q).num.toNat / 10 ^ decExp q) ++ '.' ::
         padDigits ((q * 10 ^ decExp q).num.toNat % 10 ^ decExp q) (decExp q)) := rfl
  generalize hmgen : (q * 10 ^ decExp q).num.toNat = m at hpq hmq
  generalize hkgen : decExp q = k at hpq hmq hden
  by_cases hk0 : k = 0
  · rw [if_pos hk0] at hpq
    have hne := printNat_ne_nil m
    have hdig : isDigitCh ((printNat m ++ ['.', '0']).headD ' ') = true := by
      rw [headD_append _ hne]
      exact printNat_chars m _ (headD_mem hne ' ')
    have hsplit : splitCh '.' (printNat m ++ ['.', '0']) = [printNat m, ['0']] := by
      rw [show printNat m ++ ['.', '0'] = printNat m ++ '.' :: ['0'] from rfl,
        splitCh_append '.' _ _ (printNat_no_dot m), splitCh_no_sep '.' ['0'] (by decide)]
    have hchars0 : ∀ c ∈ printNat m ++ ['.', '0'], isDigitCh c = true ∨ c = '.' := by
      intro c hc
      rcases List.mem_append.mp hc with h1 | h1
      · exact .inl (printNat_chars m c h1)
      · rcases List.mem_cons.mp h1 with rfl | h1
        · exact .inr rfl
        · rcases List.mem_singleton.mp h1 with rfl
          exact .inl (by decide)
    have hnoe0 : splitE (printNat m ++ ['.', '0']) = none :=
      splitE_none_of _ (no_expChar_of_digit_dot _ hchars0)
    rw [hpq, parseQ_of_head_digit _ hdig,
      parseQPos_eval _ _ _ hnoe0 hsplit hne (by simp) m 0 (parseNat_printNat m) (by decide)]
    refine congrArg some ?_
    rw [hk0] at hmq
    norm_num at hmq
    simp [hmq]
  · rw [if_neg hk0] at hpq
    have hklt : 0 < k := Nat.pos_of_ne_zero hk0
    have hmod : m % 10 ^ k < 10 ^ k := Nat.mod_lt _ (pow_pos (by norm_num) k)
    have hne := printNat_ne_nil (m / 10 ^ k)
    have hdig : isDigitCh
        ((printNat (m / 10 ^ k) ++ '.' :: padDigits (m % 10 ^ k) k).headD ' ') = true := by
      rw [headD_append _ hne]
      exact printNat_chars _ _ (headD_mem hne ' ')
    have hnodot : '.' ∉ padDigits (m % 10 ^ k) k :=
      fun h => absurd (padDigits_chars _ _ '.' h) (by decide)
    have hsplit : splitCh '.' (printNat (m / 10 ^ k) ++ '.' :: padDigits (m % 10 ^ k) k)
        = [printNat (m / 10 ^ k), padDigits (m % 10 ^ k) k] := by
      rw [splitCh_append '.' _ _ (printNat_no_dot _), splitCh_no_sep '.' _ hnodot]
    have hbne := padDigits_ne_nil (m % 10 ^ k) k hklt hmod
    have hchars1 : ∀ c ∈ printNat (m / 10 ^ k) ++ '.' :: padDigits (m % 10 ^ k) k,
        isDigitCh c = true ∨ c = '.' := by
      intro c hc
      rcases List.mem_append.mp hc with h1 | h1
      · exact .inl (printNat_chars _ c h1)
      · rcases List.mem_cons.mp h1 with rfl | h1
        · exact .inr rfl
        · exact .inl (padDigits_chars _ _ c h1)
    have hnoe1 : splitE (printNat (m / 10 ^ k) ++ '.' :: padDigits (m % 10 ^ k) k) = none :=
      splitE_none_of _ (no_expChar_of_digit_dot _ hchars1)
    rw [hpq, parseQ_of_head_digit _ hdig,
      parseQPos_eval _ _ _ hnoe1 hsplit hne hbne _ _ (parseNat_printNat (m / 10 ^ k))
        (parseNat_padDigits (m % 10 ^ k) k hklt hmod)]
    refine congrArg some ?_
    rw [padDigits_length _ _ hmod]
    have hpow : (0 : ℚ) < 10 ^ k := by positivity
    have hsum : ((m / 10 ^ k : ℕ) : ℚ) * 10 ^ k + ((m % 10 ^ k : ℕ) : ℚ) = (m : ℚ) := by
      have h2 : m / 10 ^ k * 10 ^ k + m % 10 ^ k = m := by
        rw [Nat.mul_comm (m / 10 ^ k) (10 ^ k)]
        exact Nat.div_add_mod m (10 ^ k)
      exact_mod_cast h2
    have hq2 : q = (m : ℚ) / 10 ^ k := by
      rw [eq_div_iff (ne_of_gt hpow)]
      exact hmq.symm
    rw [hq2, ← hsum]
    field_simp

/-! Assembly of the CSV round trip. -/

/-- The data portion of one CSV line for a holding: ticker, comma, shares. -/
def rowStr (h : Holding) : Str := h.ticker.data ++ ',' :: printQ h.shares

lemma toCsv_eq (p : List Holding) (hne : p ≠ []) :
    toCsv p =
      "ticker,shares".data ++ '\n' ::
        ((p.map rowStr).map (fun l => l ++ ['\n'])).flatten := by
  unfold toCsv
  rw [if_neg hne, List.map_map,
    show "ticker,shares\n".data = "ticker,shares".data ++ ['\n'] from by decide]
  simp [List.append_assoc, Function.comp_def, rowStr]

lemma splitCh_lines (c : Char) : ∀ (lines : List Str), (∀ l ∈ lines, c ∉ l) →
    splitCh c ((lines.map (fun l => l ++ [c])).flatten) = lines ++ [[]] := by
  intro lines
  induction lines with
  | nil => intro h; rfl
  | cons l ls ih =>
      intro h
      rw [List.map_cons, List.flatten_cons,
        show (l ++ [c]) ++ (ls.map (fun x => x ++ [c])).flatten
          = l ++ c :: (ls.map (fun x => x ++ [c])).flatten from by simp,
        splitCh_append c _ _ (h l (by simp)), ih (fun x hx => h x (by simp [hx]))]
      rfl

lemma splitCh_rowStr (h : Holding) (hnc : ',' ∉ h.ticker.data) :
    splitCh ',' (rowStr h) = [h.ticker.data, printQ h.shares] := by
  unfold rowStr
  rw [splitCh_append ',' _ _ hnc, splitCh_no_sep ',' _ (printQ_no_comma _)]

lemma data_ne_nil {s : String} (h : s ≠ "") : s.data ≠ [] := by
  intro hd
  exact h (String.ext hd)

/-- Splitting the serialized portfolio into nonblank lines recovers the header
line and one line per holding. -/
lemma toCsv_lines (p : List Holding) (hne : p ≠ [])
    (hgood : ∀ h ∈ p, h.ticker ≠ "" ∧ ',' ∉ h.ticker.data ∧ '\n' ∉ h.ticker.data) :
    (splitCh '\n' (toCsv p)).filter (fun l => !l.isEmpty)
      = "ticker,shares".data :: p.map rowStr := by
  have hnonl : ∀ l ∈ p.map rowStr, '\n' ∉ l := by
    intro l hl
    obtain ⟨h, hp, rfl⟩ := List.mem_map.mp hl
    intro hmem
    unfold rowStr at hmem
    rcases List.mem_append.mp hmem with h1 | h1
    · exact (hgood h hp).2.2 h1
    · rcases List.mem_cons.mp h1 with h2 | h2
      · exact absurd h2 (by decide)
      · exact printQ_no_newline _ h2
  have hsplit : splitCh '\n' (toCsv p)
      = "ticker,shares".data :: (p.map rowStr ++ [[]]) := by
    rw [toCsv_eq p hne, splitCh_append '\n' _ _ (by decide),
      splitCh_lines '\n' (p.map rowStr) hnonl]
  rw [hsplit, List.filter_cons_of_pos (by decide), List.filter_append]
  have h1 : (p.map rowStr).filter (fun l => !l.isEmpty) = p.map rowStr := by
    apply List.filter_eq_self.mpr
    intro l hl
    obtain ⟨h, hp, rfl⟩ := List.mem_map.mp hl
    have : h.ticker.data ≠ [] := data_ne_nil (hgood h hp).1
    unfold rowStr
    cases hd : h.ticker.data with
    | nil => exact absurd hd this
    | cons x xs => simp
  rw [h1]
  simp

lemma decExpAux_succ (fuel k : ℕ) (q : ℚ) :
    decExpAux (fuel + 1) k q = if (q * 10 ^ k).den = 1 then k else decExpAux fuel (k + 1) q := rfl

/-- Integer-valued rationals need no fractional digits. -/
lemma decExp_eq_zero (q : ℚ) (h : (q * 10 ^ 0).den = 1) : decExp q = 0 := by
  unfold decExp
  rw [show (1200 : ℕ) = 1199 + 1 from rfl, decExpAux_succ, if_pos h]

lemma printQ_one : printQ 1 = ['1', '.', '0'] := by
  have hk : decExp 1 = 0 := decExp_eq_zero 1 (by norm_num)
  have hpq : printQ 1 =
      (if decExp 1 = 0 then printNat (((1 : ℚ) * 10 ^ decExp 1).num.toNat) ++ ['.', '0']
       else printNat (((1 : ℚ) * 10 ^ decExp 1).num.toNat / 10 ^ decExp 1) ++ '.' ::
         padDigits (((1 : ℚ) * 10 ^ decExp 1).num.toNat % 10 ^ decExp 1) (decExp 1)) := rfl
  rw [hpq, if_pos hk, hk]
  have hm : (((1 : ℚ) * 10 ^ (0 : ℕ)).num.toNat) = 1 := by norm_num
  rw [hm]
  decide

/-- An uppercase letter is not a digit. -/
lemma upperAlpha_not_digit {c : Char} (h : upperAlpha c = true) : isDigitCh c = false := by
  cases h2 : isDigitCh c with
  | false => rfl
  | true =>
      exfalso
      unfold upperAlpha at h
      unfold isDigitCh at h2
      simp at h h2
      omega

/-- An uppercase letter is none of the CSV structural characters. -/
lemma upperAlpha_ne {c : Char} (h : upperAlpha c = true) :
    c ≠ ',' ∧ c ≠ '\n' ∧ c ≠ '-' ∧ c ≠ '.' := by
  refine ⟨?_, ?_, ?_, ?_⟩ <;> (intro he; subst he; revert h; decide)

/-- The mantissa produced by the exponent split is made of the input's
characters. -/
lemma splitE_mem : ∀ (s m e : Str), splitE s = some (m, e) → ∀ c ∈ m, c ∈ s := by
  intro s
  induction s with
  | nil =>
      intro m e hse
      simp [splitE] at hse
  | cons a as ih =>
      intro m e hse c hc
      unfold splitE at hse
      split at hse
      · cases hse
        simp at hc
      · rcases Option.map_eq_some'.mp hse with ⟨⟨p1, p2⟩, hp, hf⟩
        cases hf
        rcases List.mem_cons.mp hc with rfl | hc2
        · exact List.mem_cons_self _ _
        · exact List.mem_cons_of_mem _ (ih p1 p2 hp c hc2)

/-- A string of letters never parses as a digit run. -/
lemma parseNat_none_of_alpha (s : Str) (h : ∀ c ∈ s, upperAlpha c = true) :
    parseNat s = none := by
  cases s with
  | nil => rfl
  | cons c cs =>
      rw [parseNat_eq_aux _ (by simp)]
      unfold parseNatAux
      rw [if_neg (by simp [upperAlpha_not_digit (h c (by simp))])]

/-- A string of letters never parses as a mantissa. -/
lemma parseMant_none_of_alpha (s : Str) (h : ∀ c ∈ s, upperAlpha c = true) :
    parseMant s = none := by
  have hdot : '.' ∉ s := fun hm => absurd (h '.' hm) (by decide)
  unfold parseMant
  rw [splitCh_no_sep '.' s hdot]
  simp [parseNat_none_of_alpha s h]

/-- A string of letters never parses as an unsigned number, exponent split or
not. -/
lemma parseQPos_none_of_alpha (s : Str) (h : ∀ c ∈ s, upperAlpha c = true) :
    parseQPos s = none := by
  unfold parseQPos
  cases hse : splitE s with
  | none => simp [parseMant_none_of_alpha s h]
  | some me =>
      obtain ⟨m, e⟩ := me
      have hm : ∀ c ∈ m, upperAlpha c = true := fun c hc => h c (splitE_mem s m e hse c hc)
      simp [parseMant_none_of_alpha m hm]

/-- A string of letters never parses as a number. -/
lemma parseQ_none_of_alpha (s : Str) (h : ∀ c ∈ s, upperAlpha c = true) :
    parseQ s = none := by
  cases s with
  | nil => decide
  | cons c cs =>
      unfold parseQ
      rw [if_neg (by simpa using (upperAlpha_ne (h c (by simp))).2.2.1)]
      exact parseQPos_none_of_alpha _ h

/-- Every NA marker is empty or carries a character that is neither a digit
nor a point. -/
lemma isNAStr_has_bad (s : Str) (hs : isNAStr s = true) :
    s = [] ∨ ∃ c ∈ s, ¬(isDigitCh c = true ∨ c = '.') := by
  have hmem : s ∈ naStrings := by simpa [isNAStr] using hs
  simp only [naStrings, List.map_cons, List.map_nil] at hmem
  fin_cases hmem <;> first | (left; rfl) | (right; decide)

/-- A printed share count is never mistaken for an NA marker. -/
lemma printQ_not_na (q : ℚ) : isNAStr (printQ q) = false := by
  cases h : isNAStr (printQ q) with
  | false => rfl
  | true =>
      exfalso
      rcases isNAStr_has_bad _ h with h1 | ⟨c, hc, hbad⟩
      · exact printQ_ne_nil q h1
      · exact hbad (printQ_chars q c hc)

/-- Full evaluation of the loader on a serialized portfolio: the structural
checks pass, the shares column is always inferred numeric (every printed share
count parses back and is no NA marker), and the ticker column's dtype is
whatever the inference assigns to the tickers. -/
lemma loadPortfolio_eval (p : List Holding) (hne : p ≠ [])
    (hgood : ∀ h ∈ p, h.ticker ≠ "" ∧ ',' ∉ h.ticker.data ∧ '\n' ∉ h.ticker.data)
    (hshares : ∀ h ∈ p, 0 ≤ h.shares ∧ IsDec h.shares) :
    loadPortfolio (toCsv p) =
      some (p.map (fun h =>
        [("ticker".data,
          inferCell (colKind (p.map (fun x => x.ticker.data))) h.ticker.data),
         ("shares".data, Cell.num h.shares)])) := by
  have hfiltered := toCsv_lines p hne hgood
  have hcols : splitCh ',' ("ticker,shares".data) = ["ticker".data, "shares".data] := by
    decide
  have hrows : (p.map rowStr).map (splitCh ',')
      = p.map (fun h => [h.ticker.data, printQ h.shares]) := by
    rw [List.map_map]
    apply List.map_congr_left
    intro h hp
    exact splitCh_rowStr h (hgood h hp).2.1
  have hall : (p.map (fun h => [h.ticker.data, printQ h.shares])).all
      (fun r => r.length == (["ticker".data, "shares".data] : List Str).length) = true := by
    apply List.all_eq_true.mpr
    intro r hr
    obtain ⟨h, -, rfl⟩ := List.mem_map.mp hr
    rfl
  have hcont : ((["ticker".data, "shares".data] : List Str).contains ("ticker".data)
      && (["ticker".data, "shares".data] : List Str).contains ("shares".data)) = true := by
    decide
  have henum : (["ticker".data, "shares".data] : List Str).enum
      = [(0, "ticker".data), (1, "shares".data)] := by decide
  have hcol0 : (p.map (fun h => [h.ticker.data, printQ h.shares])).map
      (fun r => r.getD 0 []) = p.map (fun x => x.ticker.data) := by
    rw [List.map_map]
    rfl
  have hcol1 : (p.map (fun h => [h.ticker.data, printQ h.shares])).map
      (fun r => r.getD 1 []) = p.map (fun x => printQ x.shares) := by
    rw [List.map_map]
    rfl
  have hnum1 : colIsNumeric (p.map (fun x => printQ x.shares)) = true := by
    apply List.all_eq_true.mpr
    intro s hs
    obtain ⟨h, hp, rfl⟩ := List.mem_map.mp hs
    have hp2 := parseQ_printQ h.shares (hshares h hp).1 (hshares h hp).2
    simp [hp2]
  have hkind1 : colKind (p.map (fun x => printQ x.shares)) = .numeric := by
    unfold colKind
    rw [if_pos hnum1]
  unfold loadPortfolio
  rw [hfiltered]
  simp only [hcols, hrows]
  rw [if_pos hall, if_pos hcont]
  simp only [henum, List.map_cons, List.map_nil, hcol0, hcol1, hkind1]
  refine congrArg some ?_
  rw [List.map_map]
  apply List.map_congr_left
  intro h hp
  have hpq := parseQ_printQ h.shares (hshares h hp).1 (hshares h hp).2
  have hcell : inferCell ColKind.numeric (printQ h.shares) = Cell.num h.shares := by
    unfold inferCell
    rw [if_neg (by simp [printQ_not_na h.shares])]
    simp only [hpq]
  simp [hcell, List.getD]

/-- C10, counterexample: a portfolio whose single ticker is the digit string
123 does not survive the download/upload cycle — read_csv's dtype inference
re-types the all-numeric ticker column, so the loaded record holds the number
123 where the original held the string. -/
theorem spec_c10_cex :
    loadPortfolio (toCsv [⟨"123", (1 : ℚ)⟩]) ≠
      some ([⟨"123", (1 : ℚ)⟩].map holdingRec) := by
  have heval := loadPortfolio_eval [⟨"123", (1 : ℚ)⟩] (by simp)
    (by
      intro h hp
      rcases List.mem_singleton.mp hp with rfl
      exact ⟨by decide, by decide, by decide⟩)
    (by
      intro h hp
      rcases List.mem_singleton.mp hp with rfl
      exact ⟨by norm_num, 0, by norm_num, by norm_num⟩)
  rw [heval]
  have hkind : colKind (([⟨"123", (1 : ℚ)⟩] : List Holding).map (fun x => x.ticker.data))
      = .numeric := by decide
  simp only [hkind, List.map_cons, List.map_nil]
  decide

/-- C10, amended: for a nonempty portfolio whose tickers are nonempty strings
of uppercase letters and none of the loader's special spellings (an NA marker,
a TRUE/FALSE spelling, an infinity form, or a nan form), and whose share
counts are nonnegative finite decimals, the download/upload cycle reproduces
the portfolio record for record; a ticker column made entirely of numeric
fields is re-typed by dtype inference and the round trip fails (see the
counterexample), NA-marker or all-bool tickers are nulled or re-typed
likewise, and an empty portfolio serializes to a bare newline the loader
rejects. -/
theorem spec_c10_roundtrip (p : List Holding) (hne : p ≠ [])
    (hticker : ∀ h ∈ p, h.ticker ≠ "" ∧ (∀ c ∈ h.ticker.data, upperAlpha c = true) ∧
      isNAStr h.ticker.data = false ∧ isBoolStr h.ticker.data = false ∧
      isInfStr h.ticker.data = false ∧ h.ticker.data.map Char.toLower ≠ "nan".data)
    (hshares : ∀ h ∈ p, 0 ≤ h.shares ∧ IsDec h.shares) :
    loadPortfolio (toCsv p) = some (p.map holdingRec) := by
  have hgood3 : ∀ h ∈ p, h.ticker ≠ "" ∧ ',' ∉ h.ticker.data ∧ '\n' ∉ h.ticker.data := by
    intro h hp
    refine ⟨(hticker h hp).1, ?_, ?_⟩
    · intro hm
      exact absurd ((hticker h hp).2.1 ',' hm) (by decide)
    · intro hm
      exact absurd ((hticker h hp).2.1 '\n' hm) (by decide)
  rw [loadPortfolio_eval p hne hgood3 hshares]
  obtain ⟨h0, hp0⟩ := List.exists_mem_of_ne_nil p hne
  have h1 := hticker h0 hp0
  have hkind0 : colKind (p.map (fun x => x.ticker.data)) = .object := by
    have hnum : colIsNumeric (p.map (fun x => x.ticker.data)) = false := by
      apply List.all_eq_false.mpr
      refine ⟨h0.ticker.data, List.mem_map_of_mem _ hp0, ?_⟩
      simp [h1.2.2.1, h1.2.2.2.2.1, parseQ_none_of_alpha _ h1.2.1]
    have hbool : colIsBool (p.map (fun x => x.ticker.data)) = false := by
      apply List.all_eq_false.mpr
      refine ⟨h0.ticker.data, List.mem_map_of_mem _ hp0, ?_⟩
      simp [h1.2.2.1, h1.2.2.2.1]
    simp [colKind, hnum, hbool]
  simp only [hkind0]
  refine congrArg some ?_
  apply List.map_congr_left
  intro h hp
  unfold holdingRec inferCell
  rw [if_neg (by simp [(hticker h hp).2.2.1])]

/-- C10, witness: a one-asset portfolio with the alphabetic ticker AAPL and
unit share count survives the round trip intact. -/
theorem spec_c10_roundtrip_witness :
    loadPortfolio (toCsv [⟨"AAPL", (1 : ℚ)⟩]) =
      some ([⟨"AAPL", (1 : ℚ)⟩].map holdingRec) := by
  refine spec_c10_roundtrip [⟨"AAPL", (1 : ℚ)⟩] (by simp) ?_ ?_
  · intro h hp
    rcases List.mem_singleton.mp hp with rfl
    exact ⟨by decide, by decide, by decide, by decide, by decide, by decide⟩
  · intro h hp
    rcases List.mem_singleton.mp hp with rfl
    exact ⟨by norm_num, 0, by norm_num, by norm_num⟩

end PortfolioTracker
